import Mathlib

/-
Verification of the class-imbalance notebook
("6. Mitigate Class imbalanced problem in keras.ipynb").

The notebook is a linear script: load the breast-cancer table, artificially
remove minority-class rows, split train/test, compute balanced class weights,
train a small network with and without those weights, and evaluate.

We embed the data-manipulation logic shallowly:
* the imbalance-injection loop (cell-5) and the None-filter (cell-6) are
  modelled index-faithfully, including the IndexError that Python raises
  when the loop index runs past the end of the list (result `none`);
* `class_weight.compute_class_weight('balanced', np.unique(y), y)` and the
  `dict(zip(np.unique(y), weights))` of cell-10/cell-11 are modelled over ℚ
  by sklearn's documented formula n_samples / (n_classes * bincount);
* the size behaviour of `train_test_split(..., test_size = 0.2)` (cell-8)
  and the evaluator `model.predict(X).round()`, `y_pred.sum()/len(y_pred)`,
  `accuracy_score` (cells 15/16) are modelled over ℚ.
-/

namespace Imbalance

/-- One state of the cell-5 marking loop: feature rows and label rows are
`Option`-valued, `none` standing for Python's `None` marker. -/
abbrev MarkedX (α : Type) := List (Option α)

/-- The body of cell-5, iterated: for `fuel` remaining iterations starting at
index `i`, read `y[i]`; if it equals the target label, overwrite `X[i]` and
`y[i]` with the `None` marker.  Reading past the end of `y` is Python's
`IndexError`, modelled as `none`. -/
def injectLoop (target : ℕ) : List (Option α) → List (Option ℕ) → ℕ → ℕ →
    Option (List (Option α) × List (Option ℕ))
  | X, y, _, 0 => some (X, y)
  | X, y, i, fuel + 1 =>
    match y[i]? with
    | none => none
    | some yi =>
      if yi = some target then
        injectLoop target (X.set i none) (y.set i none) (i + 1) fuel
      else
        injectLoop target X y (i + 1) fuel

/-- Cells 5 and 6 together: mark the rows among the first `n` positions whose
label equals `target`, then drop the `None` entries from both lists
(`[x for x in X_data if x != None]`, `[y for y in y_data if y != None]`). -/
def injectImbalance (X : List α) (y : List ℕ) (target n : ℕ) :
    Option (List α × List ℕ) :=
  (injectLoop target (X.map some) (y.map some) 0 n).map
    (fun p => (p.1.filterMap id, p.2.filterMap id))

/-- Functional description of the marking pass on the label list alone:
the first `n` entries equal to `some target` become `none`. -/
def markY (target : ℕ) : ℕ → List (Option ℕ) → List (Option ℕ)
  | 0, ys => ys
  | _ + 1, [] => []
  | n + 1, v :: ys => (if v = some target then none else v) :: markY target n ys

/-- Functional description of the marking pass on the feature list, steered by
the label list: position `j < n` is blanked exactly when `y[j] = some target`. -/
def markX (target : ℕ) : ℕ → List (Option α) → List (Option ℕ) → List (Option α)
  | 0, X, _ => X
  | _ + 1, [], _ => []
  | _ + 1, X, [] => X
  | n + 1, x :: xs, v :: ys =>
      (if v = some target then none else x) :: markX target n xs ys

/-- Functional description of the whole injection on zipped (feature, label)
rows: among the first `n` rows, drop those whose label equals `target`. -/
def injectXYSpec (target : ℕ) : ℕ → List (α × ℕ) → List (α × ℕ)
  | 0, l => l
  | _ + 1, [] => []
  | n + 1, (x, v) :: l =>
      if v = target then injectXYSpec target n l
      else (x, v) :: injectXYSpec target n l

/-- Functional description of the injection on the label list alone. -/
def injectSpec (target : ℕ) : ℕ → List ℕ → List ℕ
  | 0, ys => ys
  | _ + 1, [] => []
  | n + 1, v :: ys =>
      if v = target then injectSpec target n ys
      else v :: injectSpec target n ys

theorem markY_length (target : ℕ) : ∀ (n : ℕ) (ys : List (Option ℕ)),
    (markY target n ys).length = ys.length
  | 0, _ => rfl
  | _ + 1, [] => rfl
  | n + 1, v :: ys => by simp [markY, markY_length target n ys]

theorem markX_length (target : ℕ) : ∀ (n : ℕ) (X : List (Option α))
    (ys : List (Option ℕ)), (markX target n X ys).length = X.length
  | 0, _, _ => by simp [markX]
  | _ + 1, [], _ => by simp [markX]
  | _ + 1, _ :: _, [] => by simp [markX]
  | n + 1, x :: xs, v :: ys => by simp [markX, markX_length target n xs ys]

theorem markY_getElem? (target : ℕ) : ∀ (n : ℕ) (ys : List (Option ℕ)) (j : ℕ),
    (markY target n ys)[j]? =
      (ys[j]?).map (fun v => if j < n ∧ v = some target then none else v)
  | 0, ys, j => by
      cases h : ys[j]? <;> simp [markY, h]
  | _ + 1, [], j => by simp [markY]
  | n + 1, v :: ys, 0 => by
      by_cases h : v = some target <;> simp [markY, h]
  | n + 1, v :: ys, j + 1 => by
      have ih := markY_getElem? target n ys j
      by_cases h : v = some target <;>
        simp [markY, ih, Nat.succ_lt_succ_iff]

theorem markX_getElem? (target : ℕ) : ∀ (n : ℕ) (X : List (Option α))
    (ys : List (Option ℕ)) (_ : X.length = ys.length) (j : ℕ),
    (markX target n X ys)[j]? =
      if j < n ∧ ys[j]? = some (some target) then
        (X[j]?).map (fun _ => none) else X[j]?
  | 0, X, ys, _, j => by simp [markX]
  | _ + 1, [], ys, hl, j => by
      have : ys = [] := List.eq_nil_of_length_eq_zero hl.symm
      simp [markX, this]
  | _ + 1, _ :: _, [], hl, _ => by simp at hl
  | n + 1, x :: xs, v :: ys, hl, 0 => by
      by_cases h : v = some target <;> simp [markX, h]
  | n + 1, x :: xs, v :: ys, hl, j + 1 => by
      have hl' : xs.length = ys.length := by simpa using hl
      have ih := markX_getElem? target n xs ys hl' j
      by_cases h : v = some target <;>
        simp [markX, h, ih, Nat.succ_lt_succ_iff]

theorem injectLoop_some (target : ℕ) :
    ∀ (fuel : ℕ) (X : List (Option α)) (ys : List (Option ℕ)) (i : ℕ),
    X.length = ys.length → i + fuel ≤ ys.length →
    ∃ Xr yr, injectLoop target X ys i fuel = some (Xr, yr) ∧
      Xr.length = X.length ∧ yr.length = ys.length ∧
      (∀ j, yr[j]? =
        if i ≤ j ∧ j < i + fuel ∧ ys[j]? = some (some target) then some none
        else ys[j]?) ∧
      (∀ j, Xr[j]? =
        if i ≤ j ∧ j < i + fuel ∧ ys[j]? = some (some target) then some none
        else X[j]?) := by
  intro fuel
  induction fuel with
  | zero =>
    intro X ys i _ _
    refine ⟨X, ys, rfl, rfl, rfl, ?_, ?_⟩ <;>
      · intro j
        rw [if_neg]
        rintro ⟨h1, h2, -⟩
        omega
  | succ fuel ih =>
    intro X ys i hlen hfuel
    have hi : i < ys.length := by omega
    have hiX : i < X.length := by omega
    obtain ⟨v, hv⟩ : ∃ v, ys[i]? = some v := ⟨ys[i], List.getElem?_eq_getElem hi⟩
    by_cases hvt : v = some target
    · subst hvt
      have hlen' : (X.set i none).length = (ys.set i none).length := by
        simpa using hlen
      have hfuel' : (i + 1) + fuel ≤ (ys.set i none).length := by
        simpa using (by omega : (i + 1) + fuel ≤ ys.length)
      obtain ⟨Xr, yr, hrun, hXl, hyl, hy, hX⟩ :=
        ih (X.set i none) (ys.set i none) (i + 1) hlen' hfuel'
      refine ⟨Xr, yr, ?_, by simpa using hXl, by simpa using hyl, ?_, ?_⟩
      · rw [injectLoop, hv]; simpa using hrun
      · intro j
        rcases eq_or_ne j i with rfl | hji
        · have hcond : ¬(j + 1 ≤ j ∧ j < j + 1 + fuel ∧
              (ys.set j none)[j]? = some (some target)) := by omega
          rw [hy j, if_neg hcond, List.getElem?_set_self hi]
          simp [hv]
        · have hset : (ys.set i none)[j]? = ys[j]? :=
            List.getElem?_set_ne (fun h => hji h.symm)
          rw [hy j, hset]
          by_cases hc : i ≤ j ∧ j < i + (fuel + 1) ∧ ys[j]? = some (some target)
          · have : i + 1 ≤ j ∧ j < i + 1 + fuel ∧ ys[j]? = some (some target) := by
              refine ⟨by omega, by omega, hc.2.2⟩
            simp [this, hc]
          · have : ¬(i + 1 ≤ j ∧ j < i + 1 + fuel ∧ ys[j]? = some (some target)) := by
              intro h; exact hc ⟨by omega, by omega, h.2.2⟩
            simp [this, hc]
      · intro j
        rcases eq_or_ne j i with rfl | hji
        · have hcond : ¬(j + 1 ≤ j ∧ j < j + 1 + fuel ∧
              (ys.set j none)[j]? = some (some target)) := by omega
          rw [hX j, if_neg hcond, List.getElem?_set_self hiX]
          simp [hv]
        · have hsetY : (ys.set i none)[j]? = ys[j]? :=
            List.getElem?_set_ne (fun h => hji h.symm)
          have hsetX : (X.set i none)[j]? = X[j]? :=
            List.getElem?_set_ne (fun h => hji h.symm)
          rw [hX j, hsetY, hsetX]
          by_cases hc : i ≤ j ∧ j < i + (fuel + 1) ∧ ys[j]? = some (some target)
          · have : i + 1 ≤ j ∧ j < i + 1 + fuel ∧ ys[j]? = some (some target) := by
              refine ⟨by omega, by omega, hc.2.2⟩
            simp [this, hc]
          · have : ¬(i + 1 ≤ j ∧ j < i + 1 + fuel ∧ ys[j]? = some (some target)) := by
              intro h; exact hc ⟨by omega, by omega, h.2.2⟩
            simp [this, hc]
    · obtain ⟨Xr, yr, hrun, hXl, hyl, hy, hX⟩ :=
        ih X ys (i + 1) hlen (by omega)
      refine ⟨Xr, yr, ?_, hXl, hyl, ?_, ?_⟩
      · rw [injectLoop, hv]; simpa [hvt] using hrun
      · intro j
        rw [hy j]
        by_cases hc : i ≤ j ∧ j < i + (fuel + 1) ∧ ys[j]? = some (some target)
        · have hji : j ≠ i := by
            rintro rfl
            rw [hv] at hc
            exact hvt (by simpa using hc.2.2)
          have : i + 1 ≤ j ∧ j < i + 1 + fuel ∧ ys[j]? = some (some target) :=
            ⟨by omega, by omega, hc.2.2⟩
          simp [this, hc]
        · have : ¬(i + 1 ≤ j ∧ j < i + 1 + fuel ∧ ys[j]? = some (some target)) := by
            intro h; exact hc ⟨by omega, by omega, h.2.2⟩
          simp [this, hc]
      · intro j
        rw [hX j]
        by_cases hc : i ≤ j ∧ j < i + (fuel + 1) ∧ ys[j]? = some (some target)
        · have hji : j ≠ i := by
            rintro rfl
            rw [hv] at hc
            exact hvt (by simpa using hc.2.2)
          have : i + 1 ≤ j ∧ j < i + 1 + fuel ∧ ys[j]? = some (some target) :=
            ⟨by omega, by omega, hc.2.2⟩
          simp [this, hc]
        · have : ¬(i + 1 ≤ j ∧ j < i + 1 + fuel ∧ ys[j]? = some (some target)) := by
            intro h; exact hc ⟨by omega, by omega, h.2.2⟩
          simp [this, hc]

theorem injectLoop_none (target : ℕ) :
    ∀ (fuel : ℕ) (X : List (Option α)) (ys : List (Option ℕ)) (i : ℕ),
    ys.length < i + fuel → 1 ≤ fuel → injectLoop target X ys i fuel = none := by
  intro fuel
  induction fuel with
  | zero => intro X ys i h h1; omega
  | succ fuel ih =>
    intro X ys i h h1
    by_cases hi : i < ys.length
    · obtain ⟨v, hv⟩ : ∃ v, ys[i]? = some v := ⟨ys[i], List.getElem?_eq_getElem hi⟩
      rw [injectLoop, hv]
      by_cases hvt : v = some target
      · subst hvt
        simpa using ih (X.set i none) (ys.set i none) (i + 1)
          (by simpa using (by omega : ys.length < i + 1 + fuel)) (by omega)
      · simpa [hvt] using ih X ys (i + 1) (by omega) (by omega)
    · have hv : ys[i]? = none := List.getElem?_eq_none (by omega)
      rw [injectLoop, hv]

theorem injectLoop_eq_mark (target : ℕ) (X : List (Option α))
    (ys : List (Option ℕ)) (n : ℕ) (hlen : X.length = ys.length)
    (hn : n ≤ ys.length) :
    injectLoop target X ys 0 n = some (markX target n X ys, markY target n ys) := by
  obtain ⟨Xr, yr, hrun, hXl, hyl, hy, hX⟩ :=
    injectLoop_some target n X ys 0 hlen (by omega)
  have hyr : yr = markY target n ys := by
    apply List.ext_getElem?
    intro j
    rw [hy j, markY_getElem?]
    cases hj : ys[j]? with
    | none =>
      have : ¬(0 ≤ j ∧ j < 0 + n ∧ ys[j]? = some (some target)) := by
        rintro ⟨-, -, h⟩; rw [hj] at h; exact Option.noConfusion h
      simp [this, hj]
    | some v =>
      by_cases hc : j < n ∧ v = some target
      · have : 0 ≤ j ∧ j < 0 + n ∧ ys[j]? = some (some target) := by
          exact ⟨Nat.zero_le _, by omega, by rw [hj, hc.2]⟩
        simp [this, hc]
      · have : ¬(0 ≤ j ∧ j < 0 + n ∧ ys[j]? = some (some target)) := by
          rintro ⟨-, h1, h2⟩
          rw [hj] at h2
          exact hc ⟨by omega, by simpa using h2⟩
        simp [this, hc]
  have hXr : Xr = markX target n X ys := by
    apply List.ext_getElem?
    intro j
    rw [hX j, markX_getElem? target n X ys hlen j]
    by_cases hc : j < n ∧ ys[j]? = some (some target)
    · have hjy : j < ys.length := by
        by_contra hjy
        rw [List.getElem?_eq_none (by omega)] at hc
        exact Option.noConfusion hc.2
      have hjX : j < X.length := by omega
      have : 0 ≤ j ∧ j < 0 + n ∧ ys[j]? = some (some target) :=
        ⟨Nat.zero_le _, by omega, hc.2⟩
      rw [if_pos this, if_pos hc, List.getElem?_eq_getElem hjX]
      rfl
    · have : ¬(0 ≤ j ∧ j < 0 + n ∧ ys[j]? = some (some target)) := by
        rintro ⟨-, h1, h2⟩; exact hc ⟨by omega, h2⟩
      rw [if_neg this, if_neg hc]
  rw [hrun, hyr, hXr]

theorem filterMap_markY (target : ℕ) : ∀ (n : ℕ) (ys : List ℕ),
    (markY target n (ys.map some)).filterMap id = injectSpec target n ys
  | 0, ys => by simp [markY, injectSpec, List.filterMap_map]
  | _ + 1, [] => by simp [markY, injectSpec]
  | n + 1, v :: ys => by
      by_cases h : v = target <;>
        simp [markY, injectSpec, h, filterMap_markY target n ys]

theorem filterMap_markX (target : ℕ) : ∀ (n : ℕ) (X : List α) (ys : List ℕ),
    X.length = ys.length →
    (markX target n (X.map some) (ys.map some)).filterMap id =
      (injectXYSpec target n (X.zip ys)).map Prod.fst
  | 0, X, ys, hl => by
      simp [markX, injectXYSpec, List.filterMap_map,
        List.map_fst_zip X ys (le_of_eq hl)]
  | _ + 1, [], ys, hl => by
      have : ys = [] := List.eq_nil_of_length_eq_zero (by simpa using hl.symm)
      simp [markX, injectXYSpec, this]
  | _ + 1, _ :: _, [], hl => by simp at hl
  | n + 1, x :: xs, v :: ys, hl => by
      have hl' : xs.length = ys.length := by simpa using hl
      by_cases h : v = target <;>
        simp [markX, injectXYSpec, List.zip, h,
          filterMap_markX target n xs ys hl']

theorem injectXYSpec_map_snd (target : ℕ) : ∀ (n : ℕ) (l : List (α × ℕ)),
    (injectXYSpec target n l).map Prod.snd = injectSpec target n (l.map Prod.snd)
  | 0, l => by simp [injectXYSpec, injectSpec]
  | _ + 1, [] => by simp [injectXYSpec, injectSpec]
  | n + 1, (x, v) :: l => by
      by_cases h : v = target <;>
        simp [injectXYSpec, injectSpec, h, injectXYSpec_map_snd target n l]

/-- Master characterisation of cells 5–6: when the loop bound stays inside the
list, no error occurs and the surviving rows are exactly those among the first
`n` positions whose label differs from the target, plus all later rows. -/
theorem injectImbalance_eq_spec (X : List α) (y : List ℕ) (target n : ℕ)
    (hlen : X.length = y.length) (hn : n ≤ y.length) :
    injectImbalance X y target n =
      some ((injectXYSpec target n (X.zip y)).map Prod.fst,
            (injectXYSpec target n (X.zip y)).map Prod.snd) := by
  unfold injectImbalance
  rw [injectLoop_eq_mark target (X.map some) (y.map some) n
    (by simpa using hlen) (by simpa using hn)]
  have h2 : (markY target n (y.map some)).filterMap id =
      (injectXYSpec target n (X.zip y)).map Prod.snd := by
    rw [filterMap_markY, injectXYSpec_map_snd,
      List.map_snd_zip X y (le_of_eq hlen.symm)]
  simp [filterMap_markX target n X y hlen, h2]

/-- Cell 5 raises `IndexError` exactly when the loop bound `n` exceeds the
length of the dataset: the loop reads `y_data[i]` for every `i < n`. -/
theorem injectImbalance_eq_none (X : List α) (y : List ℕ) (target n : ℕ)
    (hn : y.length < n) : injectImbalance X y target n = none := by
  unfold injectImbalance
  rw [injectLoop_none target n (X.map some) (y.map some) 0
    (by simpa using (by omega : y.length < 0 + n)) (by omega)]
  rfl

theorem injectImbalance_snd (X : List α) (y : List ℕ) (target n : ℕ)
    (hlen : X.length = y.length) (hn : n ≤ y.length) :
    (injectImbalance X y target n).map (fun r => r.2) =
      some (injectSpec target n y) := by
  rw [injectImbalance_eq_spec X y target n hlen hn]
  simp [injectXYSpec_map_snd, List.map_snd_zip X y (le_of_eq hlen.symm)]

/-- The spec's description of the injector ("removes the first N samples whose
label equals the target label"), stated on the label column: walk the list,
delete matching labels until N deletions have happened, keep the rest. -/
def removeFirstMatching (target : ℕ) : List ℕ → ℕ → List ℕ
  | l, 0 => l
  | [], _ => []
  | v :: l, n + 1 =>
      if v = target then removeFirstMatching target l n
      else v :: removeFirstMatching target l (n + 1)

theorem injectXYSpec_sublist (target : ℕ) : ∀ (n : ℕ) (l : List (α × ℕ)),
    (injectXYSpec target n l).Sublist l
  | 0, l => by simp [injectXYSpec]
  | _ + 1, [] => by simp [injectXYSpec]
  | n + 1, (x, v) :: l => by
      by_cases h : v = target
      · simpa [injectXYSpec, h] using (injectXYSpec_sublist target n l).cons (x, v)
      · simpa [injectXYSpec, h] using (injectXYSpec_sublist target n l).cons₂ (x, v)

theorem injectSpec_sublist (target : ℕ) : ∀ (n : ℕ) (ys : List ℕ),
    (injectSpec target n ys).Sublist ys
  | 0, ys => by simp [injectSpec]
  | _ + 1, [] => by simp [injectSpec]
  | n + 1, v :: ys => by
      by_cases h : v = target
      · simpa [injectSpec, h] using (injectSpec_sublist target n ys).cons v
      · simpa [injectSpec, h] using (injectSpec_sublist target n ys).cons₂ v

/-- Closed form of the injection on labels: survivors are the non-target
labels among the first `n` positions followed by everything from position `n`
on, in their original order. -/
theorem injectSpec_eq_filter_append (target : ℕ) : ∀ (n : ℕ) (ys : List ℕ),
    injectSpec target n ys =
      (ys.take n).filter (fun v => v ≠ target) ++ ys.drop n
  | 0, ys => by simp [injectSpec]
  | _ + 1, [] => by simp [injectSpec]
  | n + 1, v :: ys => by
      by_cases h : v = target <;>
        simp [injectSpec, h, injectSpec_eq_filter_append target n ys]

/-- Closed form of the injection on (feature, label) rows: survivors are the
rows with non-target labels among the first `n` positions followed by all
rows from position `n` on, in their original order. -/
theorem injectXYSpec_eq_filter_append (target : ℕ) : ∀ (n : ℕ) (l : List (α × ℕ)),
    injectXYSpec target n l =
      (l.take n).filter (fun r => r.2 ≠ target) ++ l.drop n
  | 0, l => by simp [injectXYSpec]
  | _ + 1, [] => by simp [injectXYSpec]
  | n + 1, (x, v) :: l => by
      by_cases h : v = target <;>
        simp [injectXYSpec, h, injectXYSpec_eq_filter_append target n l]

theorem zip_map_fst_map_snd : ∀ (l : List (α × β)),
    (l.map Prod.fst).zip (l.map Prod.snd) = l
  | [] => rfl
  | r :: l => by simp [zip_map_fst_map_snd l]

theorem injectSpec_count_target (target : ℕ) : ∀ (n : ℕ) (ys : List ℕ),
    (injectSpec target n ys).count target =
      ys.count target - (ys.take n).count target
  | 0, ys => by simp [injectSpec]
  | _ + 1, [] => by simp [injectSpec]
  | n + 1, v :: ys => by
      have hle : (ys.take n).count target ≤ ys.count target :=
        (ys.take_sublist n).count_le target
      have ih := injectSpec_count_target target n ys
      by_cases h : v = target <;>
        · simp [injectSpec, h, List.count_cons, ih]
          try omega

theorem injectSpec_count_ne (target c : ℕ) (hc : c ≠ target) :
    ∀ (n : ℕ) (ys : List ℕ), (injectSpec target n ys).count c = ys.count c
  | 0, ys => by simp [injectSpec]
  | _ + 1, [] => by simp [injectSpec]
  | n + 1, v :: ys => by
      have ih := injectSpec_count_ne target c hc n ys
      by_cases h : v = target
      · subst h
        simp [injectSpec, List.count_cons, ih, Ne.symm hc]
      · simp [injectSpec, h, List.count_cons, ih]

end Imbalance

namespace Weights

/-- Modelled from the spec: `np.unique(y_train)` of cell-10 — the sorted list
of distinct labels (sklearn/numpy are outside the repository; the spec gives
the estimator's contract as n_samples / (n_classes * count)). -/
def uniqueLabels (y : List ℕ) : List ℕ := y.dedup.insertionSort (· ≤ ·)

/-- Number of distinct classes, `len(np.unique(y_train))`. -/
def numClasses (y : List ℕ) : ℕ := (uniqueLabels y).length

/-- Modelled from the spec:
`class_weight.compute_class_weight('balanced', np.unique(y), y)` of cell-10 —
one weight per distinct class, in class order, each equal to
n_samples / (n_classes * count(class)). -/
def balancedWeights (y : List ℕ) : List ℚ :=
  (uniqueLabels y).map (fun c => (y.length : ℚ) / (numClasses y * y.count c))

/-- `dict(zip(np.unique(y_train), weights))` of cell-11, as an association
list from label to weight. -/
def classWeights (y : List ℕ) : List (ℕ × ℚ) :=
  (uniqueLabels y).zip (balancedWeights y)

/-- Weight the cell-11 dictionary assigns to label `c` (0 if absent). -/
def classWeightOf (y : List ℕ) (c : ℕ) : ℚ :=
  ((classWeights y).lookup c).getD 0

theorem classWeights_eq_map (y : List ℕ) :
    classWeights y = (uniqueLabels y).map
      (fun c => (c, (y.length : ℚ) / (numClasses y * y.count c))) := by
  rw [classWeights, balancedWeights, List.map_prod_left_eq_zip]

theorem lookup_map_pair (f : ℕ → ℚ) :
    ∀ (l : List ℕ) (c : ℕ), c ∈ l →
    ((l.map (fun a => (a, f a))).lookup c) = some (f c)
  | [], c, hc => by simp at hc
  | a :: l, c, hc => by
    by_cases hca : c = a
    · subst hca
      simp [List.lookup]
    · have hcl : c ∈ l := by
        rcases List.mem_cons.mp hc with h | h
        · exact absurd h hca
        · exact h
      have hb : (c == a) = false := beq_eq_false_iff_ne.mpr hca
      simpa [List.lookup, hb] using lookup_map_pair f l c hcl

theorem mem_uniqueLabels (y : List ℕ) (c : ℕ) : c ∈ uniqueLabels y ↔ c ∈ y := by
  rw [uniqueLabels, List.mem_insertionSort, List.mem_dedup]

theorem classWeightOf_eq (y : List ℕ) (c : ℕ) (hc : c ∈ y) :
    classWeightOf y c = (y.length : ℚ) / (numClasses y * y.count c) := by
  rw [classWeightOf, classWeights_eq_map,
    lookup_map_pair _ (uniqueLabels y) c ((mem_uniqueLabels y c).mpr hc)]
  rfl

theorem length_pos_of_mem {y : List ℕ} {c : ℕ} (hc : c ∈ y) : 0 < y.length :=
  List.length_pos.mpr (List.ne_nil_of_mem hc)

theorem numClasses_pos {y : List ℕ} {c : ℕ} (hc : c ∈ y) : 0 < numClasses y :=
  List.length_pos.mpr (List.ne_nil_of_mem ((mem_uniqueLabels y c).mpr hc))

theorem classWeightOf_pos (y : List ℕ) (c : ℕ) (hc : c ∈ y) :
    0 < classWeightOf y c := by
  rw [classWeightOf_eq y c hc]
  have h1 : (0 : ℚ) < y.length := by
    exact_mod_cast length_pos_of_mem hc
  have h2 : (0 : ℚ) < numClasses y := by
    exact_mod_cast numClasses_pos hc
  have h3 : (0 : ℚ) < y.count c := by
    exact_mod_cast List.count_pos_iff.mpr hc
  positivity

end Weights

namespace Split

/-- Modelled from the spec: the size behaviour of
`train_test_split(X, y, test_size = 0.2, random_state = 7)` (cell-8) —
sklearn assigns `ceil(test_size * n)` rows to the test set; for the ratio
0.2 = 1/5 that ceiling is `(n + 4) / 5` in integer arithmetic. -/
def nTest (n : ℕ) : ℕ := (n + 4) / 5

/-- Modelled from the spec: the splitter on the (seed-7 shuffled) row list —
the test set takes the first `nTest` rows, the training set the rest. -/
def trainTestSplit (l : List α) : List α × List α :=
  (l.drop (nTest l.length), l.take (nTest l.length))

theorem nTest_mul_bounds (n : ℕ) : n ≤ 5 * nTest n ∧ 5 * nTest n ≤ n + 4 := by
  rw [nTest]
  omega

theorem nTest_ratio_bounds (n : ℕ) :
    (n : ℚ) / 5 ≤ nTest n ∧ (nTest n : ℚ) < (n : ℚ) / 5 + 1 := by
  obtain ⟨h1, h2⟩ := nTest_mul_bounds n
  constructor
  · rw [div_le_iff₀ (by norm_num : (0 : ℚ) < 5)]
    calc (n : ℚ) ≤ (5 * nTest n : ℕ) := by exact_mod_cast h1
    _ = (nTest n : ℚ) * 5 := by push_cast; ring
  · have : (5 : ℚ) * nTest n ≤ (n : ℚ) + 4 := by exact_mod_cast h2
    nlinarith

end Split

namespace Evaluate

/-- Modelled from the spec: `model.predict(X_test).round()` of cell-15 on a
probability in [0, 1] — numpy rounds to the nearest integer with ties to
even, so the result is 1 exactly when the probability exceeds 1/2 (0.5 itself
rounds to the even neighbour 0). -/
def roundProb (p : ℚ) : ℕ := if 1 / 2 < p then 1 else 0

/-- The rounded binary predictions of cell-15, one per model output. -/
def predictLabels (probs : List ℚ) : List ℕ := probs.map roundProb

/-- `y_pred.sum() / len(y_pred)` of cell-16. -/
def posFraction (preds : List ℕ) : ℚ := (preds.sum : ℚ) / preds.length

/-- Modelled from the spec: `accuracy_score(y_pred, y_test)` of cell-16 —
the mean of the elementwise equality indicator. -/
def accuracyScore (yp yt : List ℕ) : ℚ :=
  ((yp.zip yt).map (fun r => if r.1 = r.2 then (1 : ℚ) else 0)).sum / yp.length

theorem sum_eq_count_one : ∀ (l : List ℕ), (∀ x ∈ l, x = 0 ∨ x = 1) →
    l.sum = l.count 1
  | [], _ => rfl
  | x :: l, h => by
    have hx := h x (List.mem_cons_self x l)
    have hl := sum_eq_count_one l (fun a ha => h a (List.mem_cons_of_mem x ha))
    rcases hx with rfl | rfl <;> simp [List.count_cons, hl, Nat.add_comm]

theorem sum_indicator_eq_countP : ∀ (l : List (ℕ × ℕ)),
    ((l.map (fun r => if r.1 = r.2 then (1 : ℚ) else 0)).sum) =
      l.countP (fun r => r.1 == r.2)
  | [] => by simp
  | r :: l => by
    by_cases h : r.1 = r.2 <;>
      simp [List.countP_cons, h, sum_indicator_eq_countP l, add_comm]

theorem roundProb_mem (p : ℚ) : roundProb p = 0 ∨ roundProb p = 1 := by
  rw [roundProb]
  split <;> simp

end Evaluate

namespace Scenario

/-- Modelled from the spec: the label column of the sklearn breast-cancer
table, an external data source the repository only loads.  The notebook
records everything the claims depend on: 212 zeros and 357 ones overall
(cell-4), and 104 zeros among the first 200 rows — cell-7 prints 108
remaining zeros after the removal pass.  Only those counts matter to the
claims, so a block arrangement with the same counts is used. -/
def yScenario : List ℕ :=
  List.replicate 104 0 ++ List.replicate 96 1 ++
    List.replicate 108 0 ++ List.replicate 261 1

/-- Stand-in feature rows (row indices 0..568): the feature values never
influence row selection, only the per-row pairing does. -/
def xScenario : List ℕ := List.range 569

/-- Modelled from the spec: the training-split label composition implied by
the class weights recorded in cell-11 — 372/(2·83) = 2.24096… and
372/(2·289) = 0.64359…, so the 372-row split holds 83 zeros and 289 ones. -/
def yTrainScenario : List ℕ := List.replicate 83 0 ++ List.replicate 289 1

end Scenario

open Imbalance Weights Split Evaluate Scenario

/-- Claim C2, as stated, is false: the cell-5 loop `for i in range(n)` scans
the first `n` *positions*, not the first `n` *matching samples*.  On the
dataset with labels [1, 0], target 0, removal count 1, the code removes
nothing (position 0 carries label 1), while "remove the first 1 samples whose
label equals 0" would remove the second sample. -/
theorem claim_C2_counterexample :
    injectImbalance [10, 20] [1, 0] 0 1 = some ([10, 20], [1, 0]) ∧
    removeFirstMatching 0 [1, 0] 1 = [1] ∧
    ([1, 0] : List ℕ) ≠ [1] := by
  refine ⟨by decide, by decide, by decide⟩

/-- Claim C2 amended: for every dataset and removal count within the dataset
length, the injector removes exactly those samples among the first `n`
positions whose label equals the target (not the first `n` matching samples),
and the surviving rows keep their original relative order (they form a
sublist of the original rows). -/
theorem claim_C2_amended (X : List α) (y : List ℕ) (target n : ℕ)
    (hlen : X.length = y.length) (hn : n ≤ y.length) :
    injectImbalance X y target n =
      some (((((X.zip y).take n).filter (fun r => r.2 ≠ target) ++
                (X.zip y).drop n)).map Prod.fst,
            ((((X.zip y).take n).filter (fun r => r.2 ≠ target) ++
                (X.zip y).drop n)).map Prod.snd) ∧
    ((((X.zip y).take n).filter (fun r => r.2 ≠ target) ++
        (X.zip y).drop n)).Sublist (X.zip y) := by
  constructor
  · rw [injectImbalance_eq_spec X y target n hlen hn,
      injectXYSpec_eq_filter_append]
  · rw [← injectXYSpec_eq_filter_append]
    exact injectXYSpec_sublist target n (X.zip y)

theorem claim_C2_witness :
    ([5, 6] : List ℕ).length = ([0, 1] : List ℕ).length ∧
    2 ≤ ([0, 1] : List ℕ).length ∧
    (injectImbalance ([5, 6] : List ℕ) [0, 1] 0 2 =
      some ((((([5, 6] : List ℕ).zip ([0, 1] : List ℕ)).take 2).filter
                  (fun r => r.2 ≠ 0) ++
                (([5, 6] : List ℕ).zip ([0, 1] : List ℕ)).drop 2).map Prod.fst,
            (((([5, 6] : List ℕ).zip ([0, 1] : List ℕ)).take 2).filter
                  (fun r => r.2 ≠ 0) ++
                (([5, 6] : List ℕ).zip ([0, 1] : List ℕ)).drop 2).map Prod.snd) ∧
      (((([5, 6] : List ℕ).zip ([0, 1] : List ℕ)).take 2).filter (fun r => r.2 ≠ 0) ++
          (([5, 6] : List ℕ).zip ([0, 1] : List ℕ)).drop 2).Sublist
        (([5, 6] : List ℕ).zip ([0, 1] : List ℕ))) :=
  ⟨by decide, by decide, claim_C2_amended [5, 6] [0, 1] 0 2 (by decide) (by decide)⟩

/-- Claim C3, as stated, is false: on labels [1, 0] with target 0 and removal
count 1 the code removes nothing (the one scanned position carries label 1),
so the minority count stays 1 instead of dropping by the configured 1. -/
theorem claim_C3_counterexample :
    (injectImbalance [7, 8] [1, 0] 0 1).map (fun r => r.2.count 0) = some 1 ∧
    ([1, 0] : List ℕ).count 0 - 1 = 0 ∧
    (1 : ℕ) ≠ 0 := by
  refine ⟨by decide, by decide, by decide⟩

/-- Claim C3 amended: the injector reduces the target-label count by exactly
the number of target labels among the first `n` positions (which is at most
`n`, with equality only when the first `n` positions are all minority), and
every other label's count is unchanged. -/
theorem claim_C3_amended (X : List α) (y : List ℕ) (target n c : ℕ)
    (hlen : X.length = y.length) (hn : n ≤ y.length) (hc : c ≠ target) :
    (injectImbalance X y target n).map
        (fun r => (r.2.count target, r.2.count c)) =
      some (y.count target - (y.take n).count target, y.count c) := by
  have hy : (injectXYSpec target n (X.zip y)).map Prod.snd =
      injectSpec target n y := by
    rw [injectXYSpec_map_snd, List.map_snd_zip X y (le_of_eq hlen.symm)]
  rw [injectImbalance_eq_spec X y target n hlen hn]
  simp only [Option.map_some']
  rw [hy, injectSpec_count_target, injectSpec_count_ne target c hc]

theorem claim_C3_witness :
    ([5, 6] : List ℕ).length = ([0, 1] : List ℕ).length ∧
    1 ≤ ([0, 1] : List ℕ).length ∧ (1 : ℕ) ≠ 0 ∧
    (injectImbalance [5, 6] [0, 1] 0 1).map
        (fun r => (r.2.count 0, r.2.count 1)) =
      some (([0, 1] : List ℕ).count 0 - (([0, 1] : List ℕ).take 1).count 0,
        ([0, 1] : List ℕ).count 1) :=
  ⟨by decide, by decide, by decide,
    claim_C3_amended [5, 6] [0, 1] 0 1 1 (by decide) (by decide) (by decide)⟩

/-- Claim C8, as stated, is false: a removal count that exceeds the number of
matching rows (but not the dataset length) does not raise — the loop simply
runs out of matching rows and the script continues.  Labels [0, 0, 1] hold
two rows matching target 0, the removal count is 3, and the injection
succeeds silently. -/
theorem claim_C8_counterexample :
    ([0, 0, 1] : List ℕ).count 0 = 2 ∧ (2 : ℕ) < 3 ∧
    injectImbalance [4, 5, 6] [0, 0, 1] 0 3 = some ([6], [1]) := by
  refine ⟨by decide, by decide, by decide⟩

/-- Claim C8 amended: the cell-5 loop raises (IndexError) exactly when the
removal count exceeds the dataset length, because it indexes `y_data[i]` for
every `i < n`; a count that merely exceeds the matching rows is silently
truncated to the available ones.  The weight estimator applied to an empty
label sequence returns an empty mapping rather than raising. -/
theorem claim_C8_amended (X : List α) (y : List ℕ) (target n : ℕ)
    (hlen : X.length = y.length) :
    (injectImbalance X y target n = none ↔ y.length < n) ∧
    classWeights [] = [] := by
  refine ⟨⟨?_, ?_⟩, rfl⟩
  · intro hnone
    by_contra hle
    rw [injectImbalance_eq_spec X y target n hlen (by omega)] at hnone
    exact Option.noConfusion hnone
  · intro hlt
    exact injectImbalance_eq_none X y target n hlt

theorem claim_C8_witness :
    ([9] : List ℕ).length = ([1] : List ℕ).length ∧
    ((injectImbalance ([9] : List ℕ) [1] 0 5 = none ↔
        ([1] : List ℕ).length < 5) ∧
      classWeights [] = []) :=
  ⟨by decide, claim_C8_amended [9] [1] 0 5 (by decide)⟩

/-- Claim C10: the injection marks `X_data[i]` and `y_data[i]` in the same
iteration and the two `None`-filters delete exactly the marked positions, so
feature–label alignment survives: equal lengths, and every surviving pair at
the same index is a pair of the original dataset, in the original order
(the surviving rows form a sublist of the original zipped rows). -/
theorem claim_C10 (X : List α) (y : List ℕ) (target n : ℕ)
    (Xr : List α) (yr : List ℕ) (hlen : X.length = y.length)
    (hres : injectImbalance X y target n = some (Xr, yr)) :
    Xr.length = yr.length ∧ (Xr.zip yr).Sublist (X.zip y) := by
  have hn : n ≤ y.length := by
    by_contra hlt
    rw [injectImbalance_eq_none X y target n (by omega)] at hres
    exact Option.noConfusion hres
  rw [injectImbalance_eq_spec X y target n hlen hn] at hres
  have hX : Xr = (injectXYSpec target n (X.zip y)).map Prod.fst :=
    (congrArg Prod.fst (Option.some.inj hres)).symm
  have hy : yr = (injectXYSpec target n (X.zip y)).map Prod.snd :=
    (congrArg Prod.snd (Option.some.inj hres)).symm
  subst hX hy
  refine ⟨by simp, ?_⟩
  rw [zip_map_fst_map_snd]
  exact injectXYSpec_sublist target n (X.zip y)

theorem claim_C10_witness :
    ([10, 20, 30] : List ℕ).length = ([0, 1, 0] : List ℕ).length ∧
    injectImbalance ([10, 20, 30] : List ℕ) [0, 1, 0] 0 2 =
      some ([20, 30], [1, 0]) ∧
    (([20, 30] : List ℕ).length = ([1, 0] : List ℕ).length ∧
      (([20, 30] : List ℕ).zip ([1, 0] : List ℕ)).Sublist
        (([10, 20, 30] : List ℕ).zip ([0, 1, 0] : List ℕ))) :=
  ⟨by decide, by decide,
    claim_C10 [10, 20, 30] [0, 1, 0] 0 2 [20, 30] [1, 0] (by decide) (by decide)⟩

/-- Claim C4: for every non-empty label sequence, the cell-11 dictionary
assigns to each label `c` present in the sequence the weight
n_total / (num_unique_classes * count(c)). -/
theorem claim_C4 (y : List ℕ) (c : ℕ) (_hy : y ≠ []) (hc : c ∈ y) :
    (classWeights y).lookup c =
      some ((y.length : ℚ) / (numClasses y * y.count c)) := by
  rw [classWeights_eq_map,
    lookup_map_pair _ (uniqueLabels y) c ((mem_uniqueLabels y c).mpr hc)]

theorem claim_C4_witness :
    ([0, 0, 1] : List ℕ) ≠ [] ∧ (0 : ℕ) ∈ ([0, 0, 1] : List ℕ) ∧
    (classWeights [0, 0, 1]).lookup 0 = some ((3 : ℚ) / (2 * 2)) := by
  refine ⟨by decide, by decide, ?_⟩
  rw [claim_C4 [0, 0, 1] 0 (by decide) (by decide)]
  have h1 : ([0, 0, 1] : List ℕ).length = 3 := by decide
  have h2 : numClasses [0, 0, 1] = 2 := by decide
  have h3 : ([0, 0, 1] : List ℕ).count 0 = 2 := by decide
  rw [h1, h2, h3]
  norm_num

/-- Claim C5: for every label present in a non-empty sequence, the computed
weight times the label's occurrence count is n_total / num_unique_classes,
the same value for every class. -/
theorem claim_C5 (y : List ℕ) (c : ℕ) (_hy : y ≠ []) (hc : c ∈ y) :
    classWeightOf y c * y.count c = (y.length : ℚ) / numClasses y := by
  rw [classWeightOf_eq y c hc]
  have hcnt : (y.count c : ℚ) ≠ 0 := by
    exact_mod_cast (List.count_pos_iff.mpr hc).ne'
  have hk : (numClasses y : ℚ) ≠ 0 := by
    exact_mod_cast (numClasses_pos hc).ne'
  field_simp
  ring

theorem claim_C5_witness :
    ([0, 1, 1] : List ℕ) ≠ [] ∧ (1 : ℕ) ∈ ([0, 1, 1] : List ℕ) ∧
    classWeightOf [0, 1, 1] 1 * (([0, 1, 1] : List ℕ).count 1) =
      (([0, 1, 1] : List ℕ).length : ℚ) / numClasses [0, 1, 1] :=
  ⟨by decide, by decide, claim_C5 [0, 1, 1] 1 (by decide) (by decide)⟩

/-- Claim C6: class weights are positive and strictly decrease in class
frequency — if `c1` occurs less often than `c2`, the weight of `c1` exceeds
the weight of `c2`; and every label present in the sequence gets a positive
weight. -/
theorem claim_C6 (y : List ℕ) (c1 c2 c : ℕ) (_hy : y ≠ [])
    (h1 : c1 ∈ y) (h2 : c2 ∈ y) (hc : c ∈ y)
    (hlt : y.count c1 < y.count c2) :
    classWeightOf y c2 < classWeightOf y c1 ∧ 0 < classWeightOf y c := by
  refine ⟨?_, classWeightOf_pos y c hc⟩
  rw [classWeightOf_eq y c1 h1, classWeightOf_eq y c2 h2]
  have hn : (0 : ℚ) < y.length := by exact_mod_cast length_pos_of_mem h1
  have hk : (0 : ℚ) < numClasses y := by exact_mod_cast numClasses_pos h1
  have hcnt1 : (0 : ℚ) < y.count c1 := by
    exact_mod_cast List.count_pos_iff.mpr h1
  have hmul : (numClasses y : ℚ) * y.count c1 <
      (numClasses y : ℚ) * y.count c2 := by
    have : (y.count c1 : ℚ) < y.count c2 := by exact_mod_cast hlt
    exact mul_lt_mul_of_pos_left this hk
  exact div_lt_div_of_pos_left hn (by positivity) hmul

theorem claim_C6_witness :
    ([0, 1, 1] : List ℕ) ≠ [] ∧ (0 : ℕ) ∈ ([0, 1, 1] : List ℕ) ∧
    (1 : ℕ) ∈ ([0, 1, 1] : List ℕ) ∧
    ([0, 1, 1] : List ℕ).count 0 < ([0, 1, 1] : List ℕ).count 1 ∧
    (classWeightOf [0, 1, 1] 1 < classWeightOf [0, 1, 1] 0 ∧
      0 < classWeightOf [0, 1, 1] 0) :=
  ⟨by decide, by decide, by decide, by decide,
    claim_C6 [0, 1, 1] 0 1 0 (by decide) (by decide) (by decide) (by decide)
      (by decide)⟩

/-- Claim C7: for every post-injection row list, the splitter's train and
test sizes sum to the total, the test size is the 0.2 ratio of the total up
to rounding (0.2·n ≤ test < 0.2·n + 1), and in the scenario 465 rows split
into 372 train and 93 test. -/
theorem claim_C7 (l : List α) :
    (trainTestSplit l).1.length + (trainTestSplit l).2.length = l.length ∧
    (l.length : ℚ) / 5 ≤ ((trainTestSplit l).2.length : ℚ) ∧
    ((trainTestSplit l).2.length : ℚ) < (l.length : ℚ) / 5 + 1 ∧
    nTest 465 = 93 ∧ 465 - nTest 465 = 372 := by
  have hle : nTest l.length ≤ l.length := by rw [nTest]; omega
  have htest : (trainTestSplit l).2.length = nTest l.length := by
    simp [trainTestSplit, hle]
  obtain ⟨hb1, hb2⟩ := nTest_ratio_bounds l.length
  refine ⟨?_, ?_, ?_, by decide, by decide⟩
  · simp [trainTestSplit]
    omega
  · rw [htest]; exact hb1
  · rw [htest]; exact hb2

/-- Claim C9: the evaluator thresholds each model probability at 1/2
(probabilities above 1/2 predict 1, below 1/2 predict 0 — 0.5 itself rounds
to even, an edge the claim leaves open), reports the positive-prediction
fraction as (number of predicted 1s) / (number of test samples), and reports
accuracy as the fraction of predictions exactly equal to the corresponding
held-out label. -/
theorem claim_C9 (probs : List ℚ) (labels : List ℕ) (i : ℕ) (p : ℚ)
    (hlen : probs.length = labels.length) (hip : probs[i]? = some p) :
    (1 / 2 < p → (predictLabels probs)[i]? = some 1) ∧
    (p < 1 / 2 → (predictLabels probs)[i]? = some 0) ∧
    posFraction (predictLabels probs) =
      ((predictLabels probs).count 1 : ℚ) / labels.length ∧
    accuracyScore (predictLabels probs) labels =
      (((predictLabels probs).zip labels).countP
          (fun r => r.1 == r.2) : ℚ) / labels.length := by
  have hget : (predictLabels probs)[i]? = some (roundProb p) := by
    rw [predictLabels, List.getElem?_map, hip]
    rfl
  refine ⟨?_, ?_, ?_, ?_⟩
  · intro hp
    rw [hget, roundProb, if_pos hp]
  · intro hp
    rw [hget, roundProb, if_neg (by linarith)]
  · rw [posFraction, sum_eq_count_one (predictLabels probs)
      (fun x hx => by
        obtain ⟨q, -, hq⟩ := List.mem_map.mp hx
        rw [← hq]; exact roundProb_mem q)]
    rw [predictLabels, List.length_map, hlen]
  · rw [accuracyScore, sum_indicator_eq_countP]
    rw [predictLabels, List.length_map, hlen]

theorem claim_C9_witness :
    ([3 / 4, 1 / 4] : List ℚ).length = ([1, 0] : List ℕ).length ∧
    ([3 / 4, 1 / 4] : List ℚ)[0]? = some (3 / 4) ∧
    ((1 / 2 < (3 / 4 : ℚ) →
        (predictLabels [3 / 4, 1 / 4])[0]? = some 1) ∧
      ((3 / 4 : ℚ) < 1 / 2 →
        (predictLabels [3 / 4, 1 / 4])[0]? = some 0) ∧
      posFraction (predictLabels [3 / 4, 1 / 4]) =
        ((predictLabels [3 / 4, 1 / 4]).count 1 : ℚ) /
          ([1, 0] : List ℕ).length ∧
      accuracyScore (predictLabels [3 / 4, 1 / 4]) [1, 0] =
        (((predictLabels [3 / 4, 1 / 4]).zip ([1, 0] : List ℕ)).countP
            (fun r => r.1 == r.2) : ℚ) / ([1, 0] : List ℕ).length) :=
  ⟨by simp, by simp, claim_C9 [3 / 4, 1 / 4] [1, 0] 0 (3 / 4) (by simp) (by simp)⟩

set_option maxRecDepth 20000 in
theorem scenario_inject_counts :
    (injectImbalance xScenario yScenario 0 200).map
        (fun r => (r.2.count 0, r.2.count 1)) = some (108, 357) := by
  decide

set_option maxRecDepth 20000 in
/-- Claim C1, as stated, is false: on the scenario labels (212 zeros,
357 ones, 104 zeros among the first 200 rows, as the notebook records), the
cell-5 loop scans the first 200 *positions* and therefore removes only the
104 zeros found there, leaving 108 minority rows, not 12 — exactly the count
cell-7 prints.  The claimed weights 15.375/0.5168 would only follow from the
12/357 counts. -/
theorem claim_C1_counterexample :
    yScenario.count 0 = 212 ∧ yScenario.count 1 = 357 ∧
    (injectImbalance xScenario yScenario 0 200).map
        (fun r => (r.2.count 0, r.2.count 1)) = some (108, 357) ∧
    ((108, 357) : ℕ × ℕ) ≠ (12, 357) := by
  refine ⟨by decide, by decide, scenario_inject_counts, by decide⟩

set_option maxRecDepth 20000 in
/-- Claim C1 amended: after injecting imbalance with removal bound 200 on
label 0, the dataset holds 108 minority and 357 majority rows (cell-7), and
the class weights computed on the recorded 372-row training split (83 zeros,
289 ones) are 372/166 ≈ 2.2410 for the minority class and 372/578 ≈ 0.6436
for the majority class (cell-11). -/
theorem claim_C1_amended :
    (injectImbalance xScenario yScenario 0 200).map
        (fun r => (r.2.count 0, r.2.count 1)) = some (108, 357) ∧
    classWeightOf yTrainScenario 0 = 372 / 166 ∧
    classWeightOf yTrainScenario 1 = 372 / 578 := by
  refine ⟨scenario_inject_counts, ?_, ?_⟩
  · rw [classWeightOf_eq yTrainScenario 0 (by decide)]
    have h1 : yTrainScenario.length = 372 := by decide
    have h2 : numClasses yTrainScenario = 2 := by decide
    have h3 : yTrainScenario.count 0 = 83 := by decide
    rw [h1, h2, h3]
    norm_num
  · rw [classWeightOf_eq yTrainScenario 1 (by decide)]
    have h1 : yTrainScenario.length = 372 := by decide
    have h2 : numClasses yTrainScenario = 2 := by decide
    have h3 : yTrainScenario.count 1 = 289 := by decide
    rw [h1, h2, h3]
    norm_num
